import Mathlib

/-!
Verification of an e-commerce NestJS user-management backend.

The development shallowly embeds the repository's TypeScript into Lean:

* `UserService` (src/unnamed/part_000): CRUD over a Prisma-backed user
  table.  The database is modelled as a `Store` — an ordered list of rows
  plus a fresh-id counter standing in for Prisma's primary-key generation.
  Prisma's `findFirst` is `List.find?`, `findMany`+filter is `List.filter`,
  and `update` on a unique selector is `updateFirst` below.  Fallible
  service methods return `Except ServiceError`.
* `HttpExceptionFilter` (src/src/common/filters/httc-exception.filter.ts):
  `filterCatch` below, over an inductive model of the caught exception.
* `TransformResponseInterceptor`
  (src/src/common/interceptors/transform-response.interceptor.ts):
  `intercept` below.

Clock readings (`new Date()`) are threaded as explicit `Nat` arguments.
-/

/-- One row of the Prisma `User` table: id, firstName, lastName, email,
password (stored hashed), and the nullable soft-delete marker `deletedAt`.
Ids are modelled as `Nat` (generated by the database, not by repository
code); timestamps as `Nat`. -/
structure User where
  id : Nat
  firstName : String
  lastName : String
  email : String
  password : String
  deletedAt : Option Nat
deriving DecidableEq, Repr

/-- CreateUserDto (src/src/user/dto/create-user.dto.ts): firstName,
lastName, email, password. -/
structure CreateUserDto where
  firstName : String
  lastName : String
  email : String
  password : String
deriving DecidableEq, Repr

/-- Modelled from the spec: `UpdateUserDto` (its file is not among the
provided sources; the service imports it from './dto/update-user.dto').
Per the spec, `update(id, patch)` "merges provided fields" — a
partial-field patch over the creation fields, each one optional. -/
structure UpdateUserDto where
  firstName : Option String := none
  lastName : Option String := none
  email : Option String := none
  password : Option String := none
deriving DecidableEq, Repr

/-- The database state: the rows of the user table in insertion order,
plus the next fresh primary key. -/
structure Store where
  rows : List User
  nextId : Nat
deriving DecidableEq, Repr

/-- The empty database. -/
def emptyStore : Store := { rows := [], nextId := 0 }

/-- Errors a service call can surface: the `ConflictException` and
`NotFoundException` thrown by `UserService`, and a Prisma known request
error (by code) escaping from the ORM layer. -/
inductive ServiceError
  | conflict (message : String)
  | notFound (message : String)
  | prismaError (code : String)
deriving DecidableEq, Repr

/-- Modelled from the spec: `bcrypt.hash(password, cost)` — the external
bcrypt library's "salted one-way hash".  The model tags the input with the
cost, standing in for the digest; the claims only use that the stored
value is the hash function's output, which differs from the plaintext. -/
def bcryptHash (password : String) (cost : Nat) : String :=
  "$2b$" ++ toString cost ++ "$" ++ password

/-- `prisma.user.update({where, data})` on a unique selector: rewrite the
first row satisfying the selector with `f` and return the updated row and
table; `none` models Prisma's P2025 "record not found" rejection. -/
def updateFirst (p : User → Bool) (f : User → User) :
    List User → Option (User × List User)
  | [] => none
  | u :: rest =>
    if p u then some (f u, f u :: rest)
    else
      match updateFirst p f rest with
      | none => none
      | some (v, rest') => some (v, u :: rest')

namespace UserService

/-- `UserService.create`: `findFirst({email, deletedAt: null})`; Conflict
if found; otherwise hash the password with cost 10 and insert the row. -/
def create (s : Store) (dto : CreateUserDto) :
    Except ServiceError (User × Store) :=
  match s.rows.find? (fun u => u.email == dto.email && u.deletedAt.isNone) with
  | some _ => .error (.conflict "Email already exists")
  | none =>
    let hashedPassword := bcryptHash dto.password 10
    let u : User :=
      { id := s.nextId, firstName := dto.firstName, lastName := dto.lastName,
        email := dto.email, password := hashedPassword, deletedAt := none }
    .ok (u, { rows := s.rows ++ [u], nextId := s.nextId + 1 })

/-- `UserService.findById`: `findFirst({id, deletedAt: null})`; NotFound
if no non-deleted row matches. -/
def findById (s : Store) (id : Nat) : Except ServiceError User :=
  match s.rows.find? (fun u => u.id == id && u.deletedAt.isNone) with
  | none => .error (.notFound "User was not found")
  | some u => .ok u

/-- `UserService.findByEmail`: returns the row or null, no error. -/
def findByEmail (s : Store) (email : String) : Option User :=
  s.rows.find? (fun u => u.email == email && u.deletedAt.isNone)

/-- `UserService.findAll`: `findMany({where: {deletedAt: null}})`. -/
def findAll (s : Store) : List User :=
  s.rows.filter (fun u => u.deletedAt.isNone)

/-- `data: { ...dto }` of `UserService.update`: merge the provided fields
into the row (a field absent from the patch is left unchanged). -/
def applyPatch (u : User) (dto : UpdateUserDto) : User :=
  { u with
    firstName := dto.firstName.getD u.firstName
    lastName := dto.lastName.getD u.lastName
    email := dto.email.getD u.email
    password := dto.password.getD u.password }

/-- `UserService.update`: `findFirst({id, deletedAt: null})`, NotFound if
absent; then `prisma.user.update({where: {id}, data: {...dto}})`. -/
def update (s : Store) (id : Nat) (dto : UpdateUserDto) :
    Except ServiceError (User × Store) :=
  match s.rows.find? (fun u => u.id == id && u.deletedAt.isNone) with
  | none => .error (.notFound "User was not found")
  | some _ =>
    match updateFirst (fun u => u.id == id) (fun u => applyPatch u dto) s.rows with
    | none => .error (.prismaError "P2025")
    | some (v, rows') => .ok (v, { s with rows := rows' })

/-- `UserService.remove`: `findFirst({id, deletedAt: null})`, NotFound if
absent; then `prisma.user.update({where: {id, deletedAt: null},
data: {deletedAt: new Date()}})` — a soft delete, no physical removal. -/
def remove (s : Store) (id : Nat) (now : Nat) : Except ServiceError Store :=
  match s.rows.find? (fun u => u.id == id && u.deletedAt.isNone) with
  | none => .error (.notFound "User was not found")
  | some _ =>
    match updateFirst (fun u => u.id == id && u.deletedAt.isNone)
        (fun u => { u with deletedAt := some now }) s.rows with
    | none => .error (.prismaError "P2025")
    | some (_, rows') => .ok { s with rows := rows' }

end UserService

/-! ## Error translation filter (HttpExceptionFilter) -/

/-! The constants of src/src/common/constants/error-messages.constant.ts. -/

namespace ErrorMessage

def INTERNAL_SERVER_ERROR : String := "Internal server error"

def VALIDATION_FAILED : String := "Validation failed"

def BAD_REQUEST : String := "Bad request"

def GENERIC_ERROR : String := "Error"

def RESOURCE_ALREADY_EXISTS : String := "Resource already exists"

def RELATED_RESOURCE_NOT_FOUND : String := "Related resource not found"

def RESOURCE_NOT_FOUND : String := "Resource not found"

end ErrorMessage

/-! The constants of src/src/common/constants/prisma-error-codes.constant.ts. -/

namespace PrismaErrorCode

def UNIQUE_CONSTRAINT : String := "P2002"

def FOREIGN_KEY_CONSTRAINT : String := "P2003"

def RECORD_NOT_FOUND : String := "P2025"

end PrismaErrorCode

/-- The value found under the `message` key of an `HttpException`'s
response object: ValidationPipe puts an array of strings there, other
constructors a single string. -/
inductive JsMessage
  | jsStr (s : String)
  | jsArr (messages : List String)
deriving DecidableEq, Repr

/-- What `exception.getResponse()` returns: a plain string, or an object
that may or may not carry a `message` key (`none` = no such key). -/
inductive ResponseBody
  | strBody (s : String)
  | objBody (message : Option JsMessage)
deriving DecidableEq, Repr

/-- The exception taxonomy `HttpExceptionFilter.catch` switches on with
`instanceof`: a NestJS `HttpException` (with its status, whether it is a
`BadRequestException`, and its response body), a
`PrismaClientKnownRequestError` (by code), a
`PrismaClientValidationError`, or anything else. -/
inductive CaughtException
  | http (status : Nat) (badRequest : Bool) (response : ResponseBody)
  | prismaKnown (code : String)
  | prismaValidation (message : String)
  | unclassified
deriving DecidableEq, Repr

/-- The `message` field of the produced JSON envelope: the code declares
it `string` but assigns `response.message` unchecked in the generic
`HttpException` branch, so an array can flow through. -/
inductive OutMessage
  | ofString (s : String)
  | ofArray (messages : List String)
deriving DecidableEq, Repr

/-- The fixed JSON error envelope `{success:false, statusCode, message,
errors, timestamp, path}` the filter sends. -/
structure ErrorEnvelope where
  success : Bool
  statusCode : Nat
  message : OutMessage
  errors : Option (List (String × List String))
  timestamp : Nat
  path : String
deriving DecidableEq, Repr

/-- `msg.split(' ')[0]`: the first component when splitting on the single
space character (JavaScript `String.prototype.split(' ')`), i.e. the
characters before the first `' '`. -/
def firstSpaceToken (m : String) : String :=
  ⟨m.toList.takeWhile (fun c => !(c == ' '))⟩

/-- A JavaScript object `Record<string, string[]>` in key-insertion
order: `errors[field]` lookup. -/
def recordLookup : List (String × List String) → String → Option (List String)
  | [], _ => none
  | (k', l) :: rest, k => if k' = k then some l else recordLookup rest k

/-- `if (!errors[field]) errors[field] = []; errors[field].push(msg)`:
push onto the key's list if present, else add the key at the end. -/
def recordAppend : List (String × List String) → String → String →
    List (String × List String)
  | [], k, m => [(k, [m])]
  | (k', l) :: rest, k, m =>
    if k' = k then (k', l ++ [m]) :: rest
    else (k', l) :: recordAppend rest k m

/-- `HttpExceptionFilter.formatValidationErrors`: group the flat
validation message array by each message's `split(' ')[0]`. -/
def formatValidationErrors (messages : List String) :
    List (String × List String) :=
  messages.foldl (fun errors msg => recordAppend errors (firstSpaceToken msg) msg) []

/-- JavaScript truthiness of `response.message`, as used by
`(exceptionResponse as any).message || ErrorMessage.GENERIC_ERROR`:
a missing key or the empty string is falsy; any array is truthy. -/
def jsTruthy : Option JsMessage → Bool
  | none => false
  | some (.jsStr s) => !(s == "")
  | some (.jsArr _) => true

/-- `HttpExceptionFilter.catch`: classify the exception and build the
envelope.  The three components (statusCode, message, errors) start at
their defaults 500 / INTERNAL_SERVER_ERROR / null and are overwritten by
the branch taken, exactly as in the source. -/
def filterCatch (e : CaughtException) (timestamp : Nat) (path : String) :
    ErrorEnvelope :=
  let triple : Nat × OutMessage × Option (List (String × List String)) :=
    match e with
    | .http status badRequest response =>
      match badRequest, response with
      | true, .objBody (some m) =>
        -- Branch 2: BadRequestException whose response object has `message`
        match m with
        | .jsArr msgs =>
          (status, .ofString ErrorMessage.VALIDATION_FAILED,
           some (formatValidationErrors msgs))
        | .jsStr s => (status, .ofString s, none)
      | _, _ =>
        -- all other HttpExceptions (or BadRequest without a message object)
        match response with
        | .strBody s => (status, .ofString s, none)
        | .objBody om =>
          (status,
           match om with
           | some (.jsStr s) =>
             if s == "" then .ofString ErrorMessage.GENERIC_ERROR else .ofString s
           | some (.jsArr msgs) => .ofArray msgs
           | none => .ofString ErrorMessage.GENERIC_ERROR,
           none)
    | .prismaKnown code =>
      if code = PrismaErrorCode.UNIQUE_CONSTRAINT then
        (409, .ofString ErrorMessage.RESOURCE_ALREADY_EXISTS, none)
      else if code = PrismaErrorCode.FOREIGN_KEY_CONSTRAINT then
        (400, .ofString ErrorMessage.RELATED_RESOURCE_NOT_FOUND, none)
      else if code = PrismaErrorCode.RECORD_NOT_FOUND then
        (404, .ofString ErrorMessage.RESOURCE_NOT_FOUND, none)
      else
        -- unmapped Prisma code: only logged, defaults stand
        (500, .ofString ErrorMessage.INTERNAL_SERVER_ERROR, none)
    | .prismaValidation _ =>
      -- logged as a code bug, defaults stand
      (500, .ofString ErrorMessage.INTERNAL_SERVER_ERROR, none)
    | .unclassified =>
      (500, .ofString ErrorMessage.INTERNAL_SERVER_ERROR, none)
  { success := false, statusCode := triple.1, message := triple.2.1,
    errors := triple.2.2, timestamp := timestamp, path := path }

/-! ## Response envelope interceptor (TransformResponseInterceptor) -/

/-- The `{success: true, data, timestamp}` wrapper. -/
structure TransformedResponse (α : Type) where
  success : Bool
  data : α
  timestamp : Nat
deriving DecidableEq, Repr

/-- What the interceptor emits: the handler's data unchanged, or the
wrapper. -/
inductive InterceptOutput (α : Type)
  | raw (value : α)
  | transformed (r : TransformedResponse α)
deriving DecidableEq, Repr

/-- `Reflector.getAllAndOverride`: the first defined metadata value among
the targets (handler first, then class). -/
def getAllAndOverride (metas : List (Option Bool)) : Option Bool :=
  metas.findSome? id

/-- `TransformResponseInterceptor.intercept` on one emitted value:
`handlerMeta`/`classMeta` are the SKIP_TRANSFORM_KEY metadata of the
handler and its class (`none` = not set).  `if (skip)` is JavaScript
truthiness, so an undefined lookup falls through to wrapping. -/
def intercept {α : Type} (handlerMeta classMeta : Option Bool) (now : Nat)
    (data : α) : InterceptOutput α :=
  let skip := (getAllAndOverride [handlerMeta, classMeta]).getD false
  if skip then .raw data
  else .transformed { success := true, data := data, timestamp := now }

/-- Modelled from the spec: the `SkipTransform` opt-out decorator (its
file is not among the provided sources) sets the SKIP_TRANSFORM_KEY
metadata to `true`; a target without the decorator has no value.  So a
metadata slot is either unset or `true`. -/
def MarkerWellFormed (meta : Option Bool) : Prop :=
  meta = none ∨ meta = some true

/-- The validation-array shape of branch 2 of the filter: a
`BadRequestException` whose response object carries an array-valued
`message` — the only shape whose envelope gets a non-null `errors`. -/
def isValidationCase : CaughtException → Bool
  | .http _ true (.objBody (some (.jsArr _))) => true
  | _ => false

/-- Follows the claim's wording, for comparison with the source's
`firstSpaceToken`: a message's first whitespace-separated token — the
first maximal run of non-whitespace characters. -/
def specFirstWhitespaceToken (m : String) : String :=
  ⟨(m.toList.dropWhile Char.isWhitespace).takeWhile (fun c => !c.isWhitespace)⟩

/-- Follows the claim's wording: group each message under its first
whitespace-separated token. -/
def specGroupByFirstWhitespaceToken (messages : List String) :
    List (String × List String) :=
  messages.foldl
    (fun errors msg => recordAppend errors (specFirstWhitespaceToken msg) msg) []

/-! ## Invariants and the service-level transition system -/

/-- The emails of the non-deleted rows, in table order. -/
def activeEmails (s : Store) : List String :=
  (s.rows.filter (fun u => u.deletedAt.isNone)).map User.email

/-- "At most one non-deleted user per email": the active rows' emails are
pairwise distinct. -/
def EmailUnique (s : Store) : Prop :=
  (activeEmails s).Nodup

instance (s : Store) : Decidable (EmailUnique s) :=
  List.nodupDecidable (activeEmails s)

/-- Database well-formedness the model's fresh-id counter maintains:
every primary key is below the counter, and primary keys are unique. -/
def IdsOk (s : Store) : Prop :=
  (∀ i ∈ s.rows.map User.id, i < s.nextId) ∧ (s.rows.map User.id).Nodup

instance (s : Store) : Decidable (IdsOk s) :=
  inferInstanceAs (Decidable (_ ∧ _))

/-- One successful service call, as a transition on the store.  The three
read operations take the store as a plain argument and return no store,
so they step to the same state. -/
inductive UStep : Store → Store → Prop
  | createStep (s : Store) (dto : CreateUserDto) (u : User) (s' : Store) :
      UserService.create s dto = .ok (u, s') → UStep s s'
  | updateStep (s : Store) (id : Nat) (dto : UpdateUserDto) (u : User) (s' : Store) :
      UserService.update s id dto = .ok (u, s') → UStep s s'
  | removeStep (s : Store) (id now : Nat) (s' : Store) :
      UserService.remove s id now = .ok s' → UStep s s'
  | findByIdStep (s : Store) (id : Nat) : UStep s s
  | findByEmailStep (s : Store) (email : String) : UStep s s
  | findAllStep (s : Store) : UStep s s

/-- States reachable from the empty store by service calls. -/
def Reachable (s : Store) : Prop :=
  Relation.ReflTransGen UStep emptyStore s

/-- One successful service call whose update patch does not touch the
email field (`dto.email = none`): the restriction under which the email
uniqueness invariant is preserved. -/
inductive UStepNE : Store → Store → Prop
  | createStep (s : Store) (dto : CreateUserDto) (u : User) (s' : Store) :
      UserService.create s dto = .ok (u, s') → UStepNE s s'
  | updateStep (s : Store) (id : Nat) (dto : UpdateUserDto) (u : User) (s' : Store) :
      dto.email = none → UserService.update s id dto = .ok (u, s') → UStepNE s s'
  | removeStep (s : Store) (id now : Nat) (s' : Store) :
      UserService.remove s id now = .ok s' → UStepNE s s'

/-- States reachable from the empty store by service calls whose update
patches never set the email field. -/
def ReachableNE (s : Store) : Prop :=
  Relation.ReflTransGen UStepNE emptyStore s

/-! ## Helper lemmas about `find?` and `updateFirst` -/

theorem updateFirst_eq_none {p : User → Bool} {f : User → User} {l : List User} :
    updateFirst p f l = none ↔ ∀ v ∈ l, p v = false := by
  induction l with
  | nil => simp [updateFirst]
  | cons a rest ih =>
    rw [updateFirst]
    by_cases ha : p a
    · rw [if_pos ha]
      constructor
      · intro h
        exact absurd h (by simp)
      · intro hall
        exact absurd (hall a (List.mem_cons_self a rest)) (by simp [ha])
    · rw [if_neg ha]
      cases hres : updateFirst p f rest with
      | none =>
        simp only [List.forall_mem_cons]
        exact ⟨fun _ => ⟨Bool.eq_false_iff.mpr ha, ih.mp hres⟩, fun _ => trivial⟩
      | some pr =>
        constructor
        · intro h
          exact absurd h (by simp)
        · intro hall
          have hnone : updateFirst p f rest = none :=
            ih.mpr fun v hv => hall v (List.mem_cons_of_mem a hv)
          rw [hnone] at hres
          exact absurd hres (by simp)

theorem updateFirst_eq_some {p : User → Bool} {f : User → User} {l l' : List User}
    {v : User} (h : updateFirst p f l = some (v, l')) :
    ∃ pre x post, l = pre ++ x :: post ∧ (∀ y ∈ pre, p y = false) ∧
      p x = true ∧ v = f x ∧ l' = pre ++ f x :: post := by
  induction l generalizing l' v with
  | nil => simp [updateFirst] at h
  | cons a rest ih =>
    by_cases ha : p a
    · rw [updateFirst, if_pos ha] at h
      obtain ⟨hv, hl'⟩ := Prod.mk.injEq .. ▸ Option.some.inj h
      exact ⟨[], a, rest, rfl, by simp, ha, hv.symm, by simp [hl'.symm]⟩
    · rw [updateFirst, if_neg (by simp [ha])] at h
      cases hres : updateFirst p f rest with
      | none => rw [hres] at h; exact absurd h (by simp)
      | some pr =>
        obtain ⟨w, rest'⟩ := pr
        rw [hres] at h
        obtain ⟨hv, hl'⟩ := Prod.mk.injEq .. ▸ Option.some.inj h
        obtain ⟨pre, x, post, hrest, hpre, hx, hw, hrest'⟩ := ih hres
        refine ⟨a :: pre, x, post, by simp [hrest], ?_, hx, hw ▸ hv.symm, ?_⟩
        · intro y hy
          rcases List.mem_cons.mp hy with hy | hy
          · simpa [hy] using ha
          · exact hpre y hy
        · rw [← hl', hrest']; rfl

theorem find?_append_cons {p : User → Bool} {pre post : List User} {u : User}
    (hpre : ∀ v ∈ pre, p v = false) (hu : p u = true) :
    (pre ++ u :: post).find? p = some u := by
  induction pre with
  | nil => simpa using List.find?_cons_of_pos post hu
  | cons a rest ih =>
    have ha : p a = false := hpre a (List.mem_cons_self a rest)
    rw [List.cons_append, List.find?_cons_of_neg _ (by simp [ha])]
    exact ih fun v hv => hpre v (List.mem_cons_of_mem a hv)

theorem updateFirst_append_cons {p : User → Bool} {f : User → User}
    {pre post : List User} {u : User}
    (hpre : ∀ v ∈ pre, p v = false) (hu : p u = true) :
    updateFirst p f (pre ++ u :: post) = some (f u, pre ++ f u :: post) := by
  induction pre with
  | nil => simp [updateFirst, hu]
  | cons a rest ih =>
    have ha : p a = false := hpre a (List.mem_cons_self a rest)
    rw [List.cons_append, updateFirst, if_neg (by simp [ha]),
      ih fun v hv => hpre v (List.mem_cons_of_mem a hv)]
    rfl

theorem find?_updateFirst {p : User → Bool} (f : User → User) {l : List User}
    {u : User} (h : l.find? p = some u) :
    ∃ pre post, l = pre ++ u :: post ∧ (∀ y ∈ pre, p y = false) ∧ p u = true ∧
      updateFirst p f l = some (f u, pre ++ f u :: post) := by
  induction l with
  | nil => simp at h
  | cons a rest ih =>
    by_cases ha : p a
    · rw [List.find?_cons_of_pos _ ha] at h
      obtain rfl := Option.some.inj h
      exact ⟨[], rest, rfl, by simp, ha, by simp [updateFirst, ha]⟩
    · rw [List.find?_cons_of_neg _ (by simp [ha])] at h
      obtain ⟨pre, post, hl, hpre, hu, hupd⟩ := ih h
      refine ⟨a :: pre, post, by simp [hl], ?_, hu, ?_⟩
      · intro y hy
        rcases List.mem_cons.mp hy with hy | hy
        · simpa [hy] using ha
        · exact hpre y hy
      · rw [updateFirst, if_neg ha, hupd]
        rfl

/-- The modelled hash output is never the plaintext password. -/
theorem bcryptHash_ne_password (p : String) (c : Nat) : bcryptHash p c ≠ p := by
  intro h
  have hlen := congrArg String.length h
  simp only [bcryptHash, String.length_append] at hlen
  have h4 : ("$2b$" : String).length = 4 := rfl
  have h1 : ("$" : String).length = 1 := rfl
  rw [h4, h1] at hlen
  omega

/-! ## C1, C4, C8: service-level functional correctness -/

/-- C1: `create(input)` fails with Conflict (persisting nothing) exactly
when a non-deleted user with the same email (exact string equality)
exists; otherwise it inserts, at the end of the table, a row carrying the
salted hash of `input.password` — never the plaintext — and returns that
row, hash included.  On the error side the embedding returns no store:
the source throws before any write. -/
theorem create_conflict_or_insert (s : Store) (dto : CreateUserDto) :
    ((∃ u ∈ s.rows, u.email = dto.email ∧ u.deletedAt = none) →
      UserService.create s dto = .error (.conflict "Email already exists")) ∧
    ((∀ u ∈ s.rows, u.email = dto.email → u.deletedAt ≠ none) →
      UserService.create s dto =
        .ok (⟨s.nextId, dto.firstName, dto.lastName, dto.email,
              bcryptHash dto.password 10, none⟩,
             ⟨s.rows ++ [⟨s.nextId, dto.firstName, dto.lastName, dto.email,
              bcryptHash dto.password 10, none⟩], s.nextId + 1⟩) ∧
      bcryptHash dto.password 10 ≠ dto.password) := by
  constructor
  · rintro ⟨u, hmem, hemail, hdel⟩
    rw [UserService.create]
    cases hfind : s.rows.find? (fun v => v.email == dto.email && v.deletedAt.isNone) with
    | none =>
      rw [List.find?_eq_none] at hfind
      exact absurd (by simp [hemail, hdel]) (hfind u hmem)
    | some w => rfl
  · intro h
    have hfind : s.rows.find? (fun v => v.email == dto.email && v.deletedAt.isNone)
        = none := by
      rw [List.find?_eq_none]
      intro v hv hp
      simp only [Bool.and_eq_true, beq_iff_eq, Option.isNone_iff_eq_none] at hp
      exact h v hv hp.1 hp.2
    exact ⟨by rw [UserService.create, hfind], bcryptHash_ne_password dto.password 10⟩

/-- C1 witness: a second create with the email of an existing active user
is refused; a create against the empty store inserts the hashed row. -/
theorem create_conflict_or_insert_witness :
    UserService.create ⟨[⟨0, "Alice", "A", "a@x.com", "hash0", none⟩], 1⟩
        ⟨"Bob", "B", "a@x.com", "password2"⟩ =
      .error (.conflict "Email already exists") ∧
    (UserService.create emptyStore ⟨"Alice", "A", "a@x.com", "password1"⟩ =
        .ok (⟨0, "Alice", "A", "a@x.com", bcryptHash "password1" 10, none⟩,
             ⟨[⟨0, "Alice", "A", "a@x.com", bcryptHash "password1" 10, none⟩], 1⟩) ∧
      bcryptHash "password1" 10 ≠ "password1") := by
  constructor
  · exact (create_conflict_or_insert ⟨[⟨0, "Alice", "A", "a@x.com", "hash0", none⟩], 1⟩
      ⟨"Bob", "B", "a@x.com", "password2"⟩).1
      ⟨⟨0, "Alice", "A", "a@x.com", "hash0", none⟩, by simp, rfl, rfl⟩
  · exact (create_conflict_or_insert emptyStore
      ⟨"Alice", "A", "a@x.com", "password1"⟩).2 (by simp [emptyStore])

/-- C4: when no non-deleted row has the id (absent or soft-deleted),
`update` and `remove` both fail with NotFound; the embedding returns no
store on the error path, as the source throws before any write. -/
theorem update_remove_not_found (s : Store) (id : Nat) (dto : UpdateUserDto)
    (now : Nat) (h : ∀ u ∈ s.rows, u.id = id → u.deletedAt ≠ none) :
    UserService.update s id dto = .error (.notFound "User was not found") ∧
    UserService.remove s id now = .error (.notFound "User was not found") := by
  have hfind : s.rows.find? (fun u => u.id == id && u.deletedAt.isNone) = none := by
    rw [List.find?_eq_none]
    intro v hv hp
    simp only [Bool.and_eq_true, beq_iff_eq, Option.isNone_iff_eq_none] at hp
    exact h v hv hp.1 hp.2
  exact ⟨by rw [UserService.update, hfind], by rw [UserService.remove, hfind]⟩

/-- C4 witness: `update`/`remove` on an id whose only row is soft-deleted
fail with NotFound (id 1 is absent outright in the second store). -/
theorem update_remove_not_found_witness :
    (UserService.update ⟨[⟨0, "Alice", "A", "a@x.com", "h", some 3⟩], 1⟩ 0
        { firstName := some "Al" } = .error (.notFound "User was not found") ∧
      UserService.remove ⟨[⟨0, "Alice", "A", "a@x.com", "h", some 3⟩], 1⟩ 0 9 =
        .error (.notFound "User was not found")) ∧
    (UserService.update emptyStore 1 { } = .error (.notFound "User was not found") ∧
      UserService.remove emptyStore 1 9 = .error (.notFound "User was not found")) := by
  constructor
  · exact update_remove_not_found ⟨[⟨0, "Alice", "A", "a@x.com", "h", some 3⟩], 1⟩ 0
      { firstName := some "Al" } 9 (by decide)
  · exact update_remove_not_found emptyStore 1 { } 9 (by simp [emptyStore])

/-- C8: `remove(id)` on the first matching non-deleted row `u` soft
deletes exactly that row: the result keeps every row before and after it
unchanged, replaces `u` by `u` with only `deletedAt` set to the current
time, and removes nothing from storage (the fresh-id counter included). -/
theorem remove_soft_delete_frame (s : Store) (id now : Nat) (u : User)
    (pre post : List User) (hrows : s.rows = pre ++ u :: post)
    (hpre : ∀ v ∈ pre, ¬(v.id = id ∧ v.deletedAt = none))
    (hid : u.id = id) (hdel : u.deletedAt = none) :
    UserService.remove s id now =
      .ok ⟨pre ++ { u with deletedAt := some now } :: post, s.nextId⟩ := by
  have hpre' : ∀ v ∈ pre, (fun w => w.id == id && w.deletedAt.isNone) v = false := by
    intro v hv
    by_cases h1 : v.id = id
    · rcases hv2 : v.deletedAt with _ | t
      · exact absurd ⟨h1, hv2⟩ (hpre v hv)
      · simp [h1, hv2]
    · simp [h1]
  have hu : (fun w => w.id == id && w.deletedAt.isNone) u = true := by
    simp [hid, hdel]
  rw [UserService.remove, hrows, find?_append_cons hpre' hu,
    updateFirst_append_cons hpre' hu]

/-- C3: a soft-deleted user `u` (deletedAt non-null) is invisible:
`findById(u.id)` fails with NotFound (ids being unique primary keys),
`findAll()` omits `u`, and `create` with `u`'s email succeeds when no
non-deleted row carries it — and after that create, `u`'s row is still in
storage (the read operations take the store as a plain argument and
return no store, so they cannot drop it). -/
theorem soft_deleted_invisible (s : Store) (u : User) (dto : CreateUserDto)
    (hids : (s.rows.map User.id).Nodup)
    (hmem : u ∈ s.rows) (hdel : u.deletedAt ≠ none)
    (hemail : dto.email = u.email)
    (hactive : ∀ v ∈ s.rows, v.deletedAt = none → v.email ≠ u.email) :
    UserService.findById s u.id = .error (.notFound "User was not found") ∧
    u ∉ UserService.findAll s ∧
    UserService.create s dto =
      .ok (⟨s.nextId, dto.firstName, dto.lastName, dto.email,
            bcryptHash dto.password 10, none⟩,
           ⟨s.rows ++ [⟨s.nextId, dto.firstName, dto.lastName, dto.email,
            bcryptHash dto.password 10, none⟩], s.nextId + 1⟩) ∧
    u ∈ s.rows ++ [⟨s.nextId, dto.firstName, dto.lastName, dto.email,
      bcryptHash dto.password 10, none⟩] := by
  refine ⟨?_, ?_, ?_, List.mem_append_left _ hmem⟩
  · have hfind : s.rows.find? (fun v => v.id == u.id && v.deletedAt.isNone)
        = none := by
      rw [List.find?_eq_none]
      intro v hv hp
      simp only [Bool.and_eq_true, beq_iff_eq, Option.isNone_iff_eq_none] at hp
      exact hdel (List.inj_on_of_nodup_map hids hv hmem hp.1 ▸ hp.2)
    rw [UserService.findById, hfind]
  · intro hall
    rw [UserService.findAll, List.mem_filter] at hall
    rw [Option.isNone_iff_eq_none] at hall
    exact hdel hall.2
  · have hfind : s.rows.find? (fun v => v.email == dto.email && v.deletedAt.isNone)
        = none := by
      rw [List.find?_eq_none]
      intro v hv hp
      simp only [Bool.and_eq_true, beq_iff_eq, Option.isNone_iff_eq_none] at hp
      exact hactive v hv hp.2 (hemail ▸ hp.1)
    rw [UserService.create, hfind]

/-- C3 witness: with one soft-deleted row ⟨0, …, "a@x.com", deletedAt 3⟩,
findById 0 is NotFound, findAll is empty of it, and creating a new user
with the same email succeeds while the deleted row stays in storage. -/
theorem soft_deleted_invisible_witness :
    UserService.findById ⟨[⟨0, "Alice", "A", "a@x.com", "h0", some 3⟩], 1⟩ 0 =
      .error (.notFound "User was not found") ∧
    ⟨0, "Alice", "A", "a@x.com", "h0", some 3⟩ ∉
      UserService.findAll ⟨[⟨0, "Alice", "A", "a@x.com", "h0", some 3⟩], 1⟩ ∧
    UserService.create ⟨[⟨0, "Alice", "A", "a@x.com", "h0", some 3⟩], 1⟩
        ⟨"Bob", "B", "a@x.com", "password2"⟩ =
      .ok (⟨1, "Bob", "B", "a@x.com", bcryptHash "password2" 10, none⟩,
           ⟨[⟨0, "Alice", "A", "a@x.com", "h0", some 3⟩,
             ⟨1, "Bob", "B", "a@x.com", bcryptHash "password2" 10, none⟩], 2⟩) ∧
    ⟨0, "Alice", "A", "a@x.com", "h0", some 3⟩ ∈
      ([⟨0, "Alice", "A", "a@x.com", "h0", some 3⟩] : List User) ++
        [⟨1, "Bob", "B", "a@x.com", bcryptHash "password2" 10, none⟩] := by
  exact soft_deleted_invisible ⟨[⟨0, "Alice", "A", "a@x.com", "h0", some 3⟩], 1⟩
    ⟨0, "Alice", "A", "a@x.com", "h0", some 3⟩ ⟨"Bob", "B", "a@x.com", "password2"⟩
    (by decide) (by simp) (by simp) rfl (by decide)

/-- C8 witness: removing id 1 from a two-row table soft-deletes the
second row and leaves the first untouched. -/
theorem remove_soft_delete_frame_witness :
    UserService.remove ⟨[⟨0, "Alice", "A", "a@x.com", "h0", none⟩,
        ⟨1, "Bob", "B", "b@x.com", "h1", none⟩], 2⟩ 1 7 =
      .ok ⟨[⟨0, "Alice", "A", "a@x.com", "h0", none⟩,
        ⟨1, "Bob", "B", "b@x.com", "h1", some 7⟩], 2⟩ := by
  exact remove_soft_delete_frame _ 1 7 ⟨1, "Bob", "B", "b@x.com", "h1", none⟩
    [⟨0, "Alice", "A", "a@x.com", "h0", none⟩] [] rfl (by decide) rfl rfl


/-! ## C5, C9: the exception filter's translation table -/

/-- C5: a PrismaClientKnownRequestError translates exactly as mapped:
P2002 (unique constraint) to HTTP 409 "Resource already exists", P2003
(foreign key) to HTTP 400, P2025 (record not found) to HTTP 404, and any
other code to HTTP 500 with the generic internal-server-error message. -/
theorem prisma_known_error_translation (ts : Nat) (path : String) :
    (filterCatch (.prismaKnown "P2002") ts path).statusCode = 409 ∧
    (filterCatch (.prismaKnown "P2002") ts path).message =
      .ofString "Resource already exists" ∧
    (filterCatch (.prismaKnown "P2003") ts path).statusCode = 400 ∧
    (filterCatch (.prismaKnown "P2025") ts path).statusCode = 404 ∧
    (∀ code, code ≠ "P2002" → code ≠ "P2003" → code ≠ "P2025" →
      (filterCatch (.prismaKnown code) ts path).statusCode = 500 ∧
      (filterCatch (.prismaKnown code) ts path).message =
        .ofString "Internal server error") := by
  refine ⟨rfl, rfl, rfl, rfl, ?_⟩
  intro code h2 h3 h5
  simp only [filterCatch, PrismaErrorCode.UNIQUE_CONSTRAINT,
    PrismaErrorCode.FOREIGN_KEY_CONSTRAINT, PrismaErrorCode.RECORD_NOT_FOUND,
    ErrorMessage.INTERNAL_SERVER_ERROR]
  rw [if_neg h2, if_neg h3, if_neg h5]
  exact ⟨rfl, rfl⟩

/-- C5 witness: the translation at concrete arguments, the unmapped code
P1000 included. -/
theorem prisma_known_error_translation_witness :
    (filterCatch (.prismaKnown "P2002") 0 "/api/users").statusCode = 409 ∧
    (filterCatch (.prismaKnown "P2002") 0 "/api/users").message =
      .ofString "Resource already exists" ∧
    (filterCatch (.prismaKnown "P2003") 0 "/api/users").statusCode = 400 ∧
    (filterCatch (.prismaKnown "P2025") 0 "/api/users").statusCode = 404 ∧
    (filterCatch (.prismaKnown "P1000") 0 "/api/users").statusCode = 500 ∧
    (filterCatch (.prismaKnown "P1000") 0 "/api/users").message =
      .ofString "Internal server error" := by
  have h := prisma_known_error_translation 0 "/api/users"
  have hd := h.2.2.2.2 "P1000" (by decide) (by decide) (by decide)
  exact ⟨h.1, h.2.1, h.2.2.1, h.2.2.2.1, hd.1, hd.2⟩

/-- C9: the envelope's `errors` field is non-null exactly for a
BadRequestException whose response object carries an array-valued
message; every other HttpException, every Prisma error and every
unclassified exception yields `errors = null`. -/
theorem errors_nonnull_iff_validation (e : CaughtException) (ts : Nat)
    (path : String) :
    (filterCatch e ts path).errors ≠ none ↔ isValidationCase e = true := by
  cases e with
  | http status br resp =>
    cases br with
    | true =>
      cases resp with
      | strBody s => simp [filterCatch, isValidationCase]
      | objBody om =>
        cases om with
        | none => simp [filterCatch, isValidationCase]
        | some m =>
          cases m with
          | jsStr s => simp [filterCatch, isValidationCase]
          | jsArr msgs => simp [filterCatch, isValidationCase]
    | false =>
      cases resp with
      | strBody s => simp [filterCatch, isValidationCase]
      | objBody om => simp [filterCatch, isValidationCase]
  | prismaKnown code =>
    simp only [filterCatch, isValidationCase]
    split_ifs <;> simp
  | prismaValidation msg => simp [filterCatch, isValidationCase]
  | unclassified => simp [filterCatch, isValidationCase]

/-! ## C6: grouping of validation messages -/

theorem recordLookup_recordAppend (r : List (String × List String))
    (k' k m : String) :
    recordLookup (recordAppend r k' m) k =
      if k' = k then some ((recordLookup r k).getD [] ++ [m])
      else recordLookup r k := by
  induction r with
  | nil => by_cases h : k' = k <;> simp [recordAppend, recordLookup, h]
  | cons p rest ih =>
    obtain ⟨a, l⟩ := p
    by_cases hak' : a = k'
    · by_cases hak : a = k <;>
        simp [recordAppend, recordLookup, hak', hak, hak' ▸ hak]
    · by_cases hak : a = k
      · have h1 : k' ≠ k := fun h => hak' (hak.trans h.symm)
        have h2 : ¬ k = k' := fun h => h1 h.symm
        simp [recordAppend, recordLookup, hak', hak, h1, h2]
      · simp [recordAppend, recordLookup, hak', hak, ih]

theorem foldl_recordAppend_lookup (tok : String → String) (msgs : List String)
    (acc : List (String × List String)) (k : String) :
    recordLookup (msgs.foldl (fun errors msg => recordAppend errors (tok msg) msg) acc) k =
      if (msgs.filter (fun m => tok m == k)).isEmpty then recordLookup acc k
      else some ((recordLookup acc k).getD [] ++
        msgs.filter (fun m => tok m == k)) := by
  induction msgs generalizing acc with
  | nil => simp
  | cons m rest ih =>
    rw [List.foldl_cons, ih, recordLookup_recordAppend]
    by_cases hm : tok m = k
    · rw [if_pos hm]
      by_cases he : (rest.filter (fun m => tok m == k)).isEmpty
      · simp [List.filter_cons, hm, he, List.isEmpty_iff.mp he]
      · simp [List.filter_cons, hm, he, List.append_assoc]
    · rw [if_neg hm]
      simp [List.filter_cons, hm]

/-- C6 (amended): `formatValidationErrors` groups each message under its
first SPACE-separated token (`split(' ')[0]`), each key's list being the
messages with that first token, in order; the claim's concrete example
groups as stated. -/
theorem formatValidationErrors_groups_by_first_space_token :
    (∀ messages k, recordLookup (formatValidationErrors messages) k =
      (if (messages.filter (fun m => firstSpaceToken m == k)).isEmpty then none
       else some (messages.filter (fun m => firstSpaceToken m == k)))) ∧
    formatValidationErrors ["email must be an email",
        "password must be longer than or equal to 8 characters"] =
      [("email", ["email must be an email"]),
       ("password", ["password must be longer than or equal to 8 characters"])] := by
  refine ⟨fun messages k => ?_, by decide⟩
  have h := foldl_recordAppend_lookup firstSpaceToken messages [] k
  simpa [formatValidationErrors, recordLookup] using h

/-- C6 counterexample: on a message whose first whitespace is a tab, the
code keys by the characters before the first SPACE ("a\tb"), not by the
first whitespace-separated token ("a"), so the claim's grouping rule
fails as stated. -/
theorem formatValidationErrors_whitespace_counterexample :
    formatValidationErrors ["a\tb c"] = [("a\tb", ["a\tb c"])] ∧
    specGroupByFirstWhitespaceToken ["a\tb c"] = [("a", ["a\tb c"])] ∧
    formatValidationErrors ["a\tb c"] ≠ specGroupByFirstWhitespaceToken ["a\tb c"] := by
  decide

/-! ## C7: the response envelope interceptor -/

/-- C7: with well-formed skip-transform metadata (the decorator only ever
writes `true`), the interceptor returns the handler's data unchanged when
the marker is set on the handler or its class, and otherwise returns
exactly the `{success: true, data, timestamp}` envelope, for every data
value of every type. -/
theorem intercept_skip_or_wrap {α : Type} (handlerMeta classMeta : Option Bool)
    (now : Nat) (data : α)
    (hh : MarkerWellFormed handlerMeta) (hc : MarkerWellFormed classMeta) :
    ((handlerMeta = some true ∨ classMeta = some true) →
      intercept handlerMeta classMeta now data = .raw data) ∧
    (handlerMeta = none ∧ classMeta = none →
      intercept handlerMeta classMeta now data =
        .transformed ⟨true, data, now⟩) := by
  constructor
  · rintro (h | h) <;> rcases hh with rfl | rfl <;> rcases hc with rfl | rfl <;>
      simp_all [intercept, getAllAndOverride]
  · rintro ⟨rfl, rfl⟩
    simp [intercept, getAllAndOverride]

/-- C7 witness: a marked handler passes `null` data through raw; an
unmarked one wraps it in the envelope. -/
theorem intercept_skip_or_wrap_witness :
    intercept (some true) none 5 (none : Option Nat) = .raw none ∧
    intercept none none 5 (none : Option Nat) =
      .transformed ⟨true, none, 5⟩ := by
  exact ⟨(intercept_skip_or_wrap (some true) none 5 (none : Option Nat)
      (Or.inr rfl) (Or.inl rfl)).1 (Or.inl rfl),
    (intercept_skip_or_wrap none none 5 (none : Option Nat)
      (Or.inl rfl) (Or.inl rfl)).2 ⟨rfl, rfl⟩⟩

/-! ## Inversion lemmas for successful service calls -/

theorem create_ok_inv {s : Store} {dto : CreateUserDto} {u : User} {s' : Store}
    (h : UserService.create s dto = .ok (u, s')) :
    u = ⟨s.nextId, dto.firstName, dto.lastName, dto.email,
        bcryptHash dto.password 10, none⟩ ∧
    s' = ⟨s.rows ++ [u], s.nextId + 1⟩ ∧
    ∀ v ∈ s.rows, v.deletedAt = none → v.email ≠ dto.email := by
  rw [UserService.create] at h
  cases hfind : s.rows.find? (fun v => v.email == dto.email && v.deletedAt.isNone) with
  | some w => rw [hfind] at h; exact absurd h (by simp)
  | none =>
    rw [hfind] at h
    simp only [Except.ok.injEq, Prod.mk.injEq] at h
    obtain ⟨hu, hs'⟩ := h
    rw [List.find?_eq_none] at hfind
    subst hu
    subst hs'
    refine ⟨rfl, rfl, ?_⟩
    intro v hv hdel heq
    exact absurd (by simp [heq, hdel]) (hfind v hv)

theorem update_ok_inv {s : Store} {id : Nat} {dto : UpdateUserDto} {u' : User}
    {s' : Store} (h : UserService.update s id dto = .ok (u', s')) :
    ∃ w pre x post,
      s.rows.find? (fun v => v.id == id && v.deletedAt.isNone) = some w ∧
      s.rows = pre ++ x :: post ∧ (∀ y ∈ pre, (y.id == id) = false) ∧
      x.id = id ∧ u' = UserService.applyPatch x dto ∧
      s'.rows = pre ++ UserService.applyPatch x dto :: post ∧
      s'.nextId = s.nextId := by
  rw [UserService.update] at h
  cases hfind : s.rows.find? (fun v => v.id == id && v.deletedAt.isNone) with
  | none => rw [hfind] at h; exact absurd h (by simp)
  | some w =>
    rw [hfind] at h
    cases hupd : updateFirst (fun v => v.id == id)
        (fun v => UserService.applyPatch v dto) s.rows with
    | none => rw [hupd] at h; exact absurd h (by simp)
    | some pr =>
      obtain ⟨v, rows'⟩ := pr
      rw [hupd] at h
      simp only [Except.ok.injEq, Prod.mk.injEq] at h
      obtain ⟨hv, hs'⟩ := h
      obtain ⟨pre, x, post, hrows, hpre, hx, hvx, hrows'⟩ := updateFirst_eq_some hupd
      refine ⟨w, pre, x, post, rfl, hrows, hpre, by simpa using hx, ?_, ?_, ?_⟩
      · rw [← hv, hvx]
      · rw [← hs']
        exact hrows'
      · rw [← hs']
  
theorem remove_ok_inv {s : Store} {id now : Nat} {s' : Store}
    (h : UserService.remove s id now = .ok s') :
    ∃ pre x post,
      s.rows = pre ++ x :: post ∧
      (∀ y ∈ pre, (y.id == id && y.deletedAt.isNone) = false) ∧
      x.id = id ∧ x.deletedAt = none ∧
      s'.rows = pre ++ { x with deletedAt := some now } :: post ∧
      s'.nextId = s.nextId := by
  rw [UserService.remove] at h
  cases hfind : s.rows.find? (fun v => v.id == id && v.deletedAt.isNone) with
  | none => rw [hfind] at h; exact absurd h (by simp)
  | some w =>
    rw [hfind] at h
    cases hupd : updateFirst (fun v => v.id == id && v.deletedAt.isNone)
        (fun v => { v with deletedAt := some now }) s.rows with
    | none => rw [hupd] at h; exact absurd h (by simp)
    | some pr =>
      obtain ⟨v, rows'⟩ := pr
      rw [hupd] at h
      simp only [Except.ok.injEq] at h
      obtain ⟨pre, x, post, hrows, hpre, hx, hvx, hrows'⟩ := updateFirst_eq_some hupd
      simp only [Bool.and_eq_true, beq_iff_eq, Option.isNone_iff_eq_none] at hx
      refine ⟨pre, x, post, hrows, hpre, hx.1, hx.2, ?_, ?_⟩
      · rw [← h]
        exact hrows'
      · rw [← h]

/-! ## Preservation of the invariants along service steps -/

theorem applyPatch_deletedAt (u : User) (dto : UpdateUserDto) :
    (UserService.applyPatch u dto).deletedAt = u.deletedAt := rfl

theorem applyPatch_id (u : User) (dto : UpdateUserDto) :
    (UserService.applyPatch u dto).id = u.id := rfl

theorem applyPatch_email_of_none {dto : UpdateUserDto} (u : User)
    (h : dto.email = none) : (UserService.applyPatch u dto).email = u.email := by
  simp [UserService.applyPatch, h]

theorem emailUnique_create {s : Store} {dto : CreateUserDto} {u : User}
    {s' : Store} (h : UserService.create s dto = .ok (u, s'))
    (hE : EmailUnique s) : EmailUnique s' := by
  obtain ⟨hu, hs', hfresh⟩ := create_ok_inv h
  subst hs'
  unfold EmailUnique activeEmails at hE ⊢
  simp only [List.filter_append, List.map_append]
  rw [List.nodup_append]
  refine ⟨hE, by simp [hu], ?_⟩
  intro a ha hmem
  simp only [List.mem_map, List.mem_filter, Option.isNone_iff_eq_none] at ha
  obtain ⟨v, ⟨hvmem, hvdel⟩, hvemail⟩ := ha
  simp only [hu, List.mem_map, List.mem_filter, List.mem_singleton] at hmem
  obtain ⟨w, ⟨hw1, _⟩, hweq⟩ := hmem
  subst hw1
  exact hfresh v hvmem hvdel (by rw [hvemail, ← hweq])

theorem emailUnique_update_of_email_none {s : Store} {id : Nat}
    {dto : UpdateUserDto} {u' : User} {s' : Store} (hdto : dto.email = none)
    (h : UserService.update s id dto = .ok (u', s'))
    (hE : EmailUnique s) : EmailUnique s' := by
  obtain ⟨w, pre, x, post, hfind, hrows, hpre, hx, hu', hrows', hnext⟩ :=
    update_ok_inv h
  have hkey : activeEmails s' = activeEmails s := by
    unfold activeEmails
    rw [hrows', hrows]
    rcases hxd : x.deletedAt with _ | t <;>
      simp [List.filter_cons, List.filter_append, applyPatch_deletedAt, hxd,
        applyPatch_email_of_none x hdto]
  rw [EmailUnique, hkey]
  exact hE

theorem emailUnique_remove {s : Store} {id now : Nat} {s' : Store}
    (h : UserService.remove s id now = .ok s') (hE : EmailUnique s) :
    EmailUnique s' := by
  obtain ⟨pre, x, post, hrows, hpre, hxid, hxdel, hrows', hnext⟩ := remove_ok_inv h
  unfold EmailUnique activeEmails at hE ⊢
  rw [hrows']
  rw [hrows] at hE
  simp only [List.filter_append, List.map_append, List.filter_cons, hxdel,
    Option.isNone_none, Option.isNone_some, Bool.false_eq_true, if_true,
    if_false, List.map_cons] at hE ⊢
  exact hE.sublist ((List.sublist_cons_self x.email _).append_left _)

theorem idsOk_create {s : Store} {dto : CreateUserDto} {u : User} {s' : Store}
    (h : UserService.create s dto = .ok (u, s')) (hI : IdsOk s) : IdsOk s' := by
  obtain ⟨hu, hs', _⟩ := create_ok_inv h
  subst hs'
  obtain ⟨hlt, hnd⟩ := hI
  constructor
  · intro i hi
    simp only [List.map_append, List.mem_append] at hi
    rcases hi with hi | hi
    · exact Nat.lt_succ_of_lt (hlt i hi)
    · simp [hu] at hi
      simp [hi]
  · simp only [List.map_append]
    rw [List.nodup_append]
    refine ⟨hnd, by simp, ?_⟩
    intro a ha hmem
    simp only [hu, List.map_cons, List.map_nil, List.mem_singleton] at hmem
    subst hmem
    exact absurd (hlt _ ha) (Nat.lt_irrefl _)

theorem idsOk_update {s : Store} {id : Nat} {dto : UpdateUserDto} {u' : User}
    {s' : Store} (h : UserService.update s id dto = .ok (u', s'))
    (hI : IdsOk s) : IdsOk s' := by
  obtain ⟨w, pre, x, post, hfind, hrows, hpre, hx, hu', hrows', hnext⟩ :=
    update_ok_inv h
  have hkey : s'.rows.map User.id = s.rows.map User.id := by
    rw [hrows', hrows]
    simp [applyPatch_id]
  rw [IdsOk, hkey, hnext]
  exact hI

theorem idsOk_remove {s : Store} {id now : Nat} {s' : Store}
    (h : UserService.remove s id now = .ok s') (hI : IdsOk s) : IdsOk s' := by
  obtain ⟨pre, x, post, hrows, hpre, hxid, hxdel, hrows', hnext⟩ := remove_ok_inv h
  have hkey : s'.rows.map User.id = s.rows.map User.id := by
    rw [hrows', hrows]
    simp
  rw [IdsOk, hkey, hnext]
  exact hI

theorem idsOk_step {s s' : Store} (h : UStep s s') (hI : IdsOk s) : IdsOk s' := by
  cases h with
  | createStep dto u s' heq => exact idsOk_create heq hI
  | updateStep id dto u s' heq => exact idsOk_update heq hI
  | removeStep id now s' heq => exact idsOk_remove heq hI
  | findByIdStep id => exact hI
  | findByEmailStep email => exact hI
  | findAllStep => exact hI

theorem idsOk_emptyStore : IdsOk emptyStore := by
  constructor
  · intro i hi
    simp [emptyStore] at hi
  · simp [emptyStore]

theorem idsOk_reachable {s : Store} (h : Reachable s) : IdsOk s := by
  unfold Reachable at h
  induction h with
  | refl => exact idsOk_emptyStore
  | tail hsteps hstep ih => exact idsOk_step hstep ih

/-- With unique primary keys, two members of the table with the same id
are the same row. -/
theorem mem_id_unique {rows : List User} (hN : (rows.map User.id).Nodup)
    {u v : User} (hu : u ∈ rows) (hv : v ∈ rows) (h : v.id = u.id) : v = u :=
  List.inj_on_of_nodup_map hN hv hu h

/-! ## C2: email uniqueness across reachable states -/

/-- C2 (amended): the invariant "at most one non-deleted user per email"
holds in every state reachable from the empty store by create, remove,
and updates whose patch does not set the email field.  (An update patch
that sets email can break it — see the counterexample.) -/
theorem email_unique_of_reachableNE (s : Store) (h : ReachableNE s) :
    EmailUnique s := by
  unfold ReachableNE at h
  induction h with
  | refl => decide
  | tail hsteps hstep ih =>
    cases hstep with
    | createStep dto u s' heq => exact emailUnique_create heq ih
    | updateStep id dto u s' hdto heq =>
      exact emailUnique_update_of_email_none hdto heq ih
    | removeStep id now s' heq => exact emailUnique_remove heq ih

/-- C2 witness: the store reached by two creates (distinct emails)
satisfies the invariant. -/
theorem email_unique_of_reachableNE_witness :
    EmailUnique ⟨[⟨0, "Alice", "A", "a@x.com", bcryptHash "password1" 10, none⟩,
                  ⟨1, "Bob", "B", "b@x.com", bcryptHash "password2" 10, none⟩], 2⟩ := by
  refine email_unique_of_reachableNE _ ?_
  have h1 : Relation.ReflTransGen UStepNE emptyStore
      ⟨[⟨0, "Alice", "A", "a@x.com", bcryptHash "password1" 10, none⟩], 1⟩ :=
    Relation.ReflTransGen.single
      (UStepNE.createStep emptyStore ⟨"Alice", "A", "a@x.com", "password1"⟩
        ⟨0, "Alice", "A", "a@x.com", bcryptHash "password1" 10, none⟩
        ⟨[⟨0, "Alice", "A", "a@x.com", bcryptHash "password1" 10, none⟩], 1⟩ rfl)
  exact h1.tail
    (UStepNE.createStep
      ⟨[⟨0, "Alice", "A", "a@x.com", bcryptHash "password1" 10, none⟩], 1⟩
      ⟨"Bob", "B", "b@x.com", "password2"⟩
      ⟨1, "Bob", "B", "b@x.com", bcryptHash "password2" 10, none⟩
      ⟨[⟨0, "Alice", "A", "a@x.com", bcryptHash "password1" 10, none⟩,
        ⟨1, "Bob", "B", "b@x.com", bcryptHash "password2" 10, none⟩], 2⟩ rfl)

/-- C2 counterexample: the claim fails for the full operation set.  From
the empty store: create Alice (a@x.com), create Bob (b@x.com), then
update(0, {email: "b@x.com"}) — the service checks no email uniqueness on
update, so the reached state holds two non-deleted users with email
b@x.com. -/
theorem email_unique_reachable_counterexample :
    Reachable ⟨[⟨0, "Alice", "A", "b@x.com", bcryptHash "password1" 10, none⟩,
                ⟨1, "Bob", "B", "b@x.com", bcryptHash "password2" 10, none⟩], 2⟩ ∧
    ¬ EmailUnique ⟨[⟨0, "Alice", "A", "b@x.com", bcryptHash "password1" 10, none⟩,
                    ⟨1, "Bob", "B", "b@x.com", bcryptHash "password2" 10, none⟩], 2⟩ := by
  constructor
  · have h1 : Relation.ReflTransGen UStep emptyStore
        ⟨[⟨0, "Alice", "A", "a@x.com", bcryptHash "password1" 10, none⟩], 1⟩ :=
      Relation.ReflTransGen.single
        (UStep.createStep emptyStore ⟨"Alice", "A", "a@x.com", "password1"⟩
          ⟨0, "Alice", "A", "a@x.com", bcryptHash "password1" 10, none⟩
          ⟨[⟨0, "Alice", "A", "a@x.com", bcryptHash "password1" 10, none⟩], 1⟩ rfl)
    have h2 : Relation.ReflTransGen UStep emptyStore
        ⟨[⟨0, "Alice", "A", "a@x.com", bcryptHash "password1" 10, none⟩,
          ⟨1, "Bob", "B", "b@x.com", bcryptHash "password2" 10, none⟩], 2⟩ :=
      h1.tail
        (UStep.createStep
          ⟨[⟨0, "Alice", "A", "a@x.com", bcryptHash "password1" 10, none⟩], 1⟩
          ⟨"Bob", "B", "b@x.com", "password2"⟩
          ⟨1, "Bob", "B", "b@x.com", bcryptHash "password2" 10, none⟩
          ⟨[⟨0, "Alice", "A", "a@x.com", bcryptHash "password1" 10, none⟩,
            ⟨1, "Bob", "B", "b@x.com", bcryptHash "password2" 10, none⟩], 2⟩ rfl)
    exact h2.tail
      (UStep.updateStep
        ⟨[⟨0, "Alice", "A", "a@x.com", bcryptHash "password1" 10, none⟩,
          ⟨1, "Bob", "B", "b@x.com", bcryptHash "password2" 10, none⟩], 2⟩
        0 { email := some "b@x.com" }
        ⟨0, "Alice", "A", "b@x.com", bcryptHash "password1" 10, none⟩
        ⟨[⟨0, "Alice", "A", "b@x.com", bcryptHash "password1" 10, none⟩,
          ⟨1, "Bob", "B", "b@x.com", bcryptHash "password2" 10, none⟩], 2⟩ rfl)
  · decide

/-! ## C10: soft deletion is permanent through the service interface -/

theorem deleted_row_preserved {s s' : Store} (hI : IdsOk s) (h : UStep s s')
    {u : User} (hmem : u ∈ s.rows) (hdel : u.deletedAt ≠ none) :
    u ∈ s'.rows := by
  cases h with
  | createStep dto w s' heq =>
    obtain ⟨hw, hs', _⟩ := create_ok_inv heq
    subst hs'
    exact List.mem_append_left _ hmem
  | updateStep id dto u' s' heq =>
    obtain ⟨w, pre, x, post, hfind, hrows, hpre, hxid, hu', hrows', hnext⟩ :=
      update_ok_inv heq
    have hwmem : w ∈ s.rows := List.mem_of_find?_eq_some hfind
    have hwp := List.find?_some hfind
    simp only [Bool.and_eq_true, beq_iff_eq, Option.isNone_iff_eq_none] at hwp
    have huid : u.id ≠ id := by
      intro hid
      have huw : u = w := mem_id_unique hI.2 hwmem hmem (hid.trans hwp.1.symm)
      exact hdel (huw ▸ hwp.2)
    have hux : u ≠ x := fun hh => huid (hh ▸ hxid)
    rw [hrows] at hmem
    rw [hrows']
    rcases List.mem_append.mp hmem with hl | hl
    · exact List.mem_append_left _ hl
    · rcases List.mem_cons.mp hl with hl | hl
      · exact absurd hl hux
      · exact List.mem_append_right _ (List.mem_cons_of_mem _ hl)
  | removeStep id now s' heq =>
    obtain ⟨pre, x, post, hrows, hpre, hxid, hxdel, hrows', hnext⟩ :=
      remove_ok_inv heq
    have hux : u ≠ x := fun hh => hdel (hh ▸ hxdel)
    rw [hrows] at hmem
    rw [hrows']
    rcases List.mem_append.mp hmem with hl | hl
    · exact List.mem_append_left _ hl
    · rcases List.mem_cons.mp hl with hl | hl
      · exact absurd hl hux
      · exact List.mem_append_right _ (List.mem_cons_of_mem _ hl)
  | findByIdStep id => exact hmem
  | findByEmailStep email => exact hmem
  | findAllStep => exact hmem

/-- C10: once a user's deletedAt is non-null in a reachable state, any
further sequence of service calls (create, findById, findByEmail,
findAll, update, remove — the reads step to the same state) keeps that
exact row in storage, and no row with its id ever differs from it: the
soft deletion is never undone and the row is never modified. -/
theorem soft_delete_permanent (s s' : Store) (u : User)
    (hreach : Reachable s) (hsteps : Relation.ReflTransGen UStep s s')
    (hmem : u ∈ s.rows) (hdel : u.deletedAt ≠ none) :
    u ∈ s'.rows ∧ ∀ v ∈ s'.rows, v.id = u.id → v = u := by
  have hmem' : u ∈ s'.rows := by
    induction hsteps with
    | refl => exact hmem
    | tail hst hone ih =>
      exact deleted_row_preserved (idsOk_reachable (hreach.trans hst)) hone ih hdel
  refine ⟨hmem', ?_⟩
  have hI' : IdsOk s' := idsOk_reachable (hreach.trans hsteps)
  intro v hv hid
  exact mem_id_unique hI'.2 hmem' hv hid

/-- C10 witness: after create Alice, remove 0 (at time 7), the deleted
row survives a later create of Bob unchanged, and id 0 still names it. -/
theorem soft_delete_permanent_witness :
    (⟨0, "Alice", "A", "a@x.com", bcryptHash "password1" 10, some 7⟩ : User) ∈
      (⟨[⟨0, "Alice", "A", "a@x.com", bcryptHash "password1" 10, some 7⟩,
         ⟨1, "Bob", "B", "b@x.com", bcryptHash "password2" 10, none⟩], 2⟩ : Store).rows ∧
    ∀ v ∈ (⟨[⟨0, "Alice", "A", "a@x.com", bcryptHash "password1" 10, some 7⟩,
         ⟨1, "Bob", "B", "b@x.com", bcryptHash "password2" 10, none⟩], 2⟩ : Store).rows,
      v.id = (⟨0, "Alice", "A", "a@x.com", bcryptHash "password1" 10, some 7⟩ : User).id →
      v = ⟨0, "Alice", "A", "a@x.com", bcryptHash "password1" 10, some 7⟩ := by
  refine soft_delete_permanent
    ⟨[⟨0, "Alice", "A", "a@x.com", bcryptHash "password1" 10, some 7⟩], 1⟩ _ _ ?_ ?_
    (by simp) (by simp)
  · have h1 : Relation.ReflTransGen UStep emptyStore
        ⟨[⟨0, "Alice", "A", "a@x.com", bcryptHash "password1" 10, none⟩], 1⟩ :=
      Relation.ReflTransGen.single
        (UStep.createStep emptyStore ⟨"Alice", "A", "a@x.com", "password1"⟩
          ⟨0, "Alice", "A", "a@x.com", bcryptHash "password1" 10, none⟩
          ⟨[⟨0, "Alice", "A", "a@x.com", bcryptHash "password1" 10, none⟩], 1⟩ rfl)
    exact h1.tail
      (UStep.removeStep
        ⟨[⟨0, "Alice", "A", "a@x.com", bcryptHash "password1" 10, none⟩], 1⟩ 0 7
        ⟨[⟨0, "Alice", "A", "a@x.com", bcryptHash "password1" 10, some 7⟩], 1⟩ rfl)
  · exact Relation.ReflTransGen.single
      (UStep.createStep
        ⟨[⟨0, "Alice", "A", "a@x.com", bcryptHash "password1" 10, some 7⟩], 1⟩
        ⟨"Bob", "B", "b@x.com", "password2"⟩
        ⟨1, "Bob", "B", "b@x.com", bcryptHash "password2" 10, none⟩
        ⟨[⟨0, "Alice", "A", "a@x.com", bcryptHash "password1" 10, some 7⟩,
          ⟨1, "Bob", "B", "b@x.com", bcryptHash "password2" 10, none⟩], 2⟩ rfl)
